import Mathlib

/-!
Verification of the antidote dependency-resolution core against its
specification.  The definitions below are a shallow embedding of
`src/antidote/_providers/indirect.py`, `src/antidote/_internal/wrapper.py`
and `src/antidote/_internal/utils/debug.py`.

Modelling conventions:
* Dependency identifiers are values of `Dep`: a plain hashable key
  (`Dep.key`) or an `ImplementationDependency` record (`Dep.impl`), with
  Python `==` modelled by `depEq` (hash-based containers compare keys with
  `__eq__`, which for `ImplementationDependency` ignores the `permanent`
  flag).
* Python classes and resolver functions are identified by their object
  identity, modelled as `Nat`.
* A resolver function `implementation()` may return different targets on
  successive invocations (it is a stateful closure); this is modelled by a
  resolver environment `renv : Nat → Nat → Dep` mapping a resolver identity
  and the value of a global invocation clock to the returned target.  The
  clock is threaded through the instrumented operations, so the number of
  resolver invocations an operation performs is the difference of the clock
  before and after.
* `container.provide(target)` either returns a `DependencyValue` or raises
  `DependencyNotFoundError`; a container is modelled as a function
  `Dep → Option (DependencyValue V)` with `none` standing for the raise.
* Python dicts and sets keyed by identifiers are modelled as association
  lists / lists, looked up with `depEq` (resp. `implEq`).
-/

set_option linter.unusedVariables false

namespace Antidote

/-- Modelled from the spec: `Scope` lives in `core/container`, which is not
among the sources (only its use sites are).  A scope is a named cache
lifetime; `singleton` is the reserved never-reset scope and `sentinel` is the
marker distinct from `none` and from every real scope. -/
inductive Scope where
  | singleton
  | sentinel
  | named (name : String)
  deriving DecidableEq, Repr

/-- Modelled from the spec: `DependencyValue` (from `core`, not among the
sources) is the immutable pair of the resolved value and its scope, `none`
meaning "do not cache". -/
structure DependencyValue (V : Type) where
  unwrapped : V
  scope : Option Scope
  deriving DecidableEq, Repr

/-- `ImplementationDependency` (`src/antidote/_providers/indirect.py`): the
`(interface, implementation, permanent)` record.  The interface class and the
resolver function are identified by their identities, modelled as `Nat`. -/
structure ImplementationDependency where
  interface : Nat
  implementation : Nat
  permanent : Bool
  deriving DecidableEq, Repr

/-- `ImplementationDependency.__init__` memoizes `hash((interface,
implementation))` in the `__hash` slot; the Python tuple hash is modelled by
the pairing function `Nat.pair`.  The `permanent` flag does not enter. -/
def implHash (i : ImplementationDependency) : Nat :=
  Nat.pair i.interface i.implementation

/-- `ImplementationDependency.__eq__`: the other value is an
`ImplementationDependency`, the memoized hashes agree, and interface and
implementation agree (`is` on identities collapses into `==`); the
`permanent` flag does not participate. -/
def implEq (a b : ImplementationDependency) : Bool :=
  implHash a == implHash b && a.interface == b.interface
    && a.implementation == b.implementation

/-- A dependency identifier: an opaque hashable key, or an
`ImplementationDependency` (which Python treats as just another hashable). -/
inductive Dep where
  | key (n : Nat)
  | impl (i : ImplementationDependency)
  deriving DecidableEq, Repr

/-- Python `==` between identifiers: plain keys compare by value,
implementation dependencies by `ImplementationDependency.__eq__`, and a plain
key never equals an implementation dependency (`__eq__` checks
`isinstance`). -/
def depEq : Dep → Dep → Bool
  | .key m, .key n => m == n
  | .impl a, .impl b => implEq a b
  | _, _ => false

/-- Lookup in the Python dict `__indirect` (association list keyed up to
`depEq`, as in hash-based dict lookup). -/
def dictLookup (m : List (Dep × Dep)) (d : Dep) : Option Dep :=
  (m.find? (fun p => depEq p.1 d)).map (·.2)

/-- `d in dict`. -/
def dictContains (m : List (Dep × Dep)) (d : Dep) : Bool :=
  (dictLookup m d).isSome

/-- `dict[d] = v`: replace the value stored at an equal key, else append a
fresh entry. -/
def dictInsert (m : List (Dep × Dep)) (d v : Dep) : List (Dep × Dep) :=
  if dictContains m d then
    m.map (fun p => if depEq p.1 d then (p.1, v) else p)
  else
    m ++ [(d, v)]

/-- `dict.update(table)`: insert the entries of `table` in order. -/
def dictUpdate (m table : List (Dep × Dep)) : List (Dep × Dep) :=
  table.foldl (fun acc p => dictInsert acc p.1 p.2) m

/-- `dependency in self.__implementations`: set membership, testing equality
of the stored elements against the queried identifier; only an
`ImplementationDependency` can equal one. -/
def inImplementations (s : List ImplementationDependency) : Dep → Bool
  | .impl i => s.any (fun j => implEq j i)
  | .key _ => false

/-- `set.add(impl)`: no-op when an equal element is present, else adjoin. -/
def setAdd (xs : List ImplementationDependency) (i : ImplementationDependency) :
    List ImplementationDependency :=
  if xs.any (fun j => implEq j i) then xs else xs ++ [i]

/-- The state of an `IndirectProvider`
(`src/antidote/_providers/indirect.py`): the set `__implementations`, the
flag `__implicits_registered` and the dict `__indirect`. -/
structure IndirectProvider where
  implementations : List ImplementationDependency
  implicits_registered : Bool
  indirect : List (Dep × Dep)
  deriving DecidableEq, Repr

/-- `IndirectProvider.__init__`. -/
def IndirectProvider.init : IndirectProvider :=
  { implementations := [], implicits_registered := false, indirect := [] }

/-- `IndirectProvider.exists`. -/
def IndirectProvider.exists' (s : IndirectProvider) (dependency : Dep) : Bool :=
  dictContains s.indirect dependency
    || inImplementations s.implementations dependency

/-- `IndirectProvider.clone`: a fresh provider with the three fields copied.
The `keep_singletons_cache` argument is accepted but not used by the
source. -/
def IndirectProvider.clone (s : IndirectProvider) (keep_singletons_cache : Bool) :
    IndirectProvider :=
  { implementations := s.implementations,
    implicits_registered := s.implicits_registered,
    indirect := s.indirect }

/-- Outcome of `maybe_provide`: `absent` models `return None`, `value v`
models returning a `DependencyValue`, and `notFound` models a
`DependencyNotFoundError` raised by `container.provide` propagating out. -/
inductive ProvideOutcome (V : Type) where
  | absent
  | value (v : DependencyValue V)
  | notFound
  deriving DecidableEq, Repr

/-- Result of an instrumented `maybe_provide` call: the outcome, the provider
state after the call (Python mutates `self`), and the resolver clock after
the call. -/
structure ProvideResult (V : Type) where
  outcome : ProvideOutcome V
  state : IndirectProvider
  clock : Nat
  deriving Repr

/-- `IndirectProvider.maybe_provide`, instrumented with the resolver clock:
`renv r t` is the target returned by resolver `r` when invoked as the `t`-th
resolver invocation overall, so a call performs `clock - t` resolver
invocations.  `container target = none` models `container.provide(target)`
raising `DependencyNotFoundError`. -/
def maybe_provide {V : Type} (container : Dep → Option (DependencyValue V))
    (renv : Nat → Nat → Dep) (s : IndirectProvider) (t : Nat)
    (dependency : Dep) : ProvideResult V :=
  match dictLookup s.indirect dependency with
  | some target =>
    match container target with
    | some v => { outcome := .value v, state := s, clock := t }
    | none => { outcome := .notFound, state := s, clock := t }
  | none =>
    match dependency, inImplementations s.implementations dependency with
    | .impl impl, true =>
      let target := renv impl.implementation t
      let s' := if impl.permanent then
          { s with indirect := dictInsert s.indirect (.impl impl) target }
        else s
      match container target with
      | some value =>
        { outcome := .value { unwrapped := value.unwrapped,
                              scope := if impl.permanent then value.scope else none },
          state := s', clock := t + 1 }
      | none => { outcome := .notFound, state := s', clock := t + 1 }
    | _, _ => { outcome := .absent, state := s, clock := t }

/-- `DependencyDebug` (from `core`, not among the sources; fields as used by
the source): description, scope, wired callables (by identity) and
sub-dependencies. -/
structure DependencyDebug where
  info : String
  scope : Option Scope
  wired : List Nat
  dependencies : List Dep
  deriving DecidableEq, Repr

/-- `IndirectProvider.maybe_debug`, instrumented with the same resolver clock
as `maybe_provide`; `debugRepr` models `debug_repr`.  The source reads `self`
but never writes it and receives no container, which the embedding reflects
by taking the state and returning none. -/
def maybe_debug (debugRepr : Dep → String) (renv : Nat → Nat → Dep)
    (s : IndirectProvider) (t : Nat) (dependency : Dep) :
    Option DependencyDebug × Nat :=
  match dependency, inImplementations s.implementations dependency with
  | .impl impl, true =>
    match dictLookup s.indirect (.impl impl) with
    | some target =>
      (some { info := debugRepr (.impl impl),
              scope := if impl.permanent then some .singleton else none,
              wired := [impl.implementation], dependencies := [target] }, t)
    | none =>
      (some { info := debugRepr (.impl impl),
              scope := if impl.permanent then some .singleton else none,
              wired := [impl.implementation],
              dependencies := [renv impl.implementation t] }, t + 1)
  | _, _ =>
    match dictLookup s.indirect dependency with
    | some target =>
      (some { info := "Implicit: " ++ debugRepr dependency ++ " -> "
                        ++ debugRepr target,
              scope := some .singleton, wired := [], dependencies := [target] }, t)
    | none => (none, t)

/-- Registration failures surfaced by the provider:
`duplicate` models `DuplicateDependencyError`, `alreadyDefined` models
`RuntimeError("Implicits have already been defined once.")`. -/
inductive RegError where
  | duplicate (dependency : Dep)
  | alreadyDefined
  deriving DecidableEq, Repr

/-- Modelled from the spec: `Provider._assert_not_duplicate` (the `Provider`
base class in `core/container` is not among the sources).  Registration fails
fast with a duplicate-dependency error the instant the identifier is already
claimed (by identity or by equality) in this provider. -/
def assert_not_duplicate (s : IndirectProvider) (dependency : Dep) :
    Except RegError Unit :=
  if s.exists' dependency then .error (.duplicate dependency) else .ok ()

/-- The `for dependency in dependency_to_target.keys()` loop of
`register_implicits`: check each key, raising at the first duplicate. -/
def checkKeys (s : IndirectProvider) : List (Dep × Dep) → Except RegError Unit
  | [] => .ok ()
  | p :: rest =>
    match assert_not_duplicate s p.1 with
    | .error e => .error e
    | .ok _ => checkKeys s rest

/-- `IndirectProvider.register_implicits`.  An error leaves the returned
state equal to the input state, faithfully to the source, which raises before
performing any mutation. -/
def register_implicits (s : IndirectProvider) (table : List (Dep × Dep)) :
    Except RegError Unit × IndirectProvider :=
  if s.implicits_registered then (.error .alreadyDefined, s)
  else
    match checkKeys s table with
    | .error e => (.error e, s)
    | .ok _ =>
      (.ok (), { s with implicits_registered := true,
                        indirect := dictUpdate s.indirect table })

/-- `IndirectProvider.register_implementation` (the `assert` statements are
type-level checks carried by the embedding's types). -/
def register_implementation (s : IndirectProvider) (interface : Nat)
    (implementation : Nat) (permanent : Bool) :
    Except RegError ImplementationDependency × IndirectProvider :=
  let impl : ImplementationDependency :=
    { interface := interface, implementation := implementation,
      permanent := permanent }
  match assert_not_duplicate s (.impl impl) with
  | .error e => (.error e, s)
  | .ok _ => (.ok impl, { s with implementations := setAdd s.implementations impl })

/-- A sequence of `maybe_provide` calls for one identifier, one container per
call, threading the provider state and the resolver clock. -/
def runProvides {V : Type} (renv : Nat → Nat → Dep) (dependency : Dep) :
    List (Dep → Option (DependencyValue V)) → IndirectProvider → Nat →
      IndirectProvider × Nat
  | [], s, t => (s, t)
  | c :: cs, s, t =>
    let r := maybe_provide c renv s t dependency
    runProvides renv dependency cs r.state r.clock

/-- `Injection` (`src/antidote/_internal/wrapper.py`): maps an argument name
to its dependency (or `none`) and whether the injection is required. -/
structure Injection where
  arg_name : String
  required : Bool
  dependency : Option Dep
  deriving DecidableEq, Repr

/-- `InjectionBlueprint`: all the injections of a wrapped function. -/
structure InjectionBlueprint where
  injections : List Injection
  deriving DecidableEq, Repr

/-- `name in kwargs` on the keyword-argument dict, modelled as an association
list (string keys compare with `==`). -/
def hasKey {V : Type} (kwargs : List (String × V)) (name : String) : Bool :=
  kwargs.any (fun p => p.1 == name)

/-- `kwargs[name] = v`. -/
def dictSet {V : Type} (kwargs : List (String × V)) (name : String) (v : V) :
    List (String × V) :=
  if hasKey kwargs name then
    kwargs.map (fun p => if p.1 == name then (p.1, v) else p)
  else
    kwargs ++ [(name, v)]

/-- The `for injection in blueprint.injections[offset:]` loop of
`_inject_kwargs`.  `container dep = none` models `container.get(dep)` raising
`DependencyNotFoundError`; `.error ()` models that error propagating out of
the loop.  The copy-on-write of the source (`kwargs = kwargs.copy()` guarded
by the `dirty_kwargs` flag the first time a value is injected) is carried by
the boolean: the result's flag is `true` exactly when the returned dict is a
private copy, and `false` when it is the caller's original mapping. -/
def injectLoop {V : Type} (container : Dep → Option V) :
    List Injection → List (String × V) → Bool →
      Except Unit (List (String × V) × Bool)
  | [], kwargs, dirty => .ok (kwargs, dirty)
  | inj :: rest, kwargs, dirty =>
    match inj.dependency with
    | none => injectLoop container rest kwargs dirty
    | some dep =>
      if hasKey kwargs inj.arg_name then injectLoop container rest kwargs dirty
      else
        match container dep with
        | some arg => injectLoop container rest (dictSet kwargs inj.arg_name arg) true
        | none =>
          if inj.required then .error ()
          else injectLoop container rest kwargs dirty

/-- `_inject_kwargs` (`src/antidote/_internal/wrapper.py`):
`dirty_kwargs` starts `false` and the loop runs over
`blueprint.injections[offset:]`. -/
def inject_kwargs {V : Type} (container : Dep → Option V)
    (blueprint : InjectionBlueprint) (offset : Nat)
    (kwargs : List (String × V)) : Except Unit (List (String × V) × Bool) :=
  injectLoop container (blueprint.injections.drop offset) kwargs false

/-- `InjectedWrapper`: the blueprint, the wrapped callable, and
`__injection_offset` (1 when `skip_self`, else 0). -/
structure InjectedWrapper (V W : Type) where
  blueprint : InjectionBlueprint
  wrapped : List V → List (String × V) → W
  injection_offset : Nat

/-- `InjectedWrapper.__call__`: injects into the keyword arguments with
offset `self.__injection_offset + len(args)` and then calls the wrapped
callable; an error raised by `_inject_kwargs` propagates, in which case the
wrapped callable is never applied. -/
def InjectedWrapper.call {V W : Type} (w : InjectedWrapper V W)
    (container : Dep → Option V) (args : List V)
    (kwargs : List (String × V)) : Except Unit W :=
  match inject_kwargs container w.blueprint (w.injection_offset + args.length) kwargs with
  | .error e => .error e
  | .ok (kw, _) => .ok (w.wrapped args kw)

/-- A work item of the `tree_debug_info` loop
(`src/antidote/_internal/utils/debug.py`): `DependencyTask` or
`InjectionTask` (name plus the injections of the wired callable). -/
inductive Task where
  | dep (d : Dep)
  | inj (name : String) (injections : List Dep)
  deriving DecidableEq, Repr

/-- An element of `DependencyDebug.wired` as the tree builder consumes it:
a wired class contributes the injections of its `__init__` directly as
dependency tasks, any other wired callable contributes one
`InjectionTask(debug_repr(w), get_injections(w))`.  `get_injections` belongs
to the excluded dependency-declaration extractor, so the injection lists are
environment data. -/
inductive WiredEntry where
  | wclass (injections : List Dep)
  | wfn (name : String) (injections : List Dep)
  deriving DecidableEq, Repr

/-- The debug information of one identifier as consumed by the tree builder:
`container.debug` output with the wired callables replaced by their
`WiredEntry` summaries. -/
structure DebugInfo where
  info : String
  scope : Option Scope
  dependencies : List Dep
  wired : List WiredEntry
  deriving DecidableEq, Repr

/-- The environment of the tree builder: `debug d = none` models
`container.debug(d)` raising `DependencyNotFoundError`, and `debugRepr`
models `debug_repr`. -/
structure DebugEnv where
  debug : Dep → Option DebugInfo
  debugRepr : Dep → String

/-- A node of the rendered tree (`DebugTreeNode`): description, scope
(defaulting to the sentinel scope for cyclic/unknown/injection nodes) and
children. -/
inductive DebugTreeNode where
  | node (info : String) (scope : Option Scope) (children : List DebugTreeNode)
  deriving Repr

/-- The child tasks pushed for a resolved node, in push order: one
`DependencyTask` per reported sub-dependency, then per wired entry either the
dependency tasks of a wired class's `__init__` injections or one
`InjectionTask`. -/
def taskList (dbg : DebugInfo) : List Task :=
  dbg.dependencies.map Task.dep
    ++ dbg.wired.flatMap (fun w =>
        match w with
        | .wclass injections => injections.map Task.dep
        | .wfn name injections => [Task.inj name injections])

/-- The recursive core of `tree_debug_info`'s work-list loop.  The imperative
loop uses a LIFO deque, so the tasks pushed for a node are processed — and
its children appended — in reverse push order, each child's whole subtree
being completed before the next sibling; this depth-first traversal is what
the recursion reproduces, with `ancestors` the `parent_dependencies` set of
the current path.  A `DependencyTask` renders an `Unknown` leaf when the
container does not know the identifier, a `Cyclic dependency` leaf when the
identifier is already among the ancestors, and otherwise a node whose
children are built only while `len(parent_dependencies) < depth`; an
`InjectionTask` renders a node (when its injection list is nonempty) whose
ancestor set is unchanged.  `fuel` is only a structural-recursion bound: the
entry point supplies `depth + 1` and every recursive call both consumes one
unit and grows `ancestors` by one element under the guard
`ancestors.length + 1 < depth`, so the `fuel = 0` branch is unreachable from
the entry point. -/
def buildDep (env : DebugEnv) (depth : Nat) :
    Nat → List Dep → Dep → DebugTreeNode
  | 0, _, _ => .node "" (some .sentinel) []
  | fuel + 1, ancestors, d =>
    match env.debug d with
    | none => .node ("/!\\ Unknown: " ++ env.debugRepr d) (some .sentinel) []
    | some dbg =>
      if ancestors.any (depEq d) then
        .node ("/!\\ Cyclic dependency: " ++ dbg.info) (some .sentinel) []
      else
        .node dbg.info dbg.scope
          (if (d :: ancestors).length < depth then
            ((taskList dbg).reverse).flatMap (fun task =>
              match task with
              | Task.dep d' => [buildDep env depth fuel (d :: ancestors) d']
              | Task.inj name injections =>
                if injections.isEmpty then []
                else [.node name (some .sentinel)
                        (injections.reverse.map
                          (fun d' => buildDep env depth fuel (d :: ancestors) d'))])
          else [])

/-- `depth` normalization at the head of `tree_debug_info`:
`if depth < 0: depth = 1 << 31` then `depth += 1`. -/
def normDepth (depth : Int) : Nat :=
  ((if depth < 0 then (2 ^ 31 : Int) else depth) + 1).toNat

/-- `tree_debug_info` restricted to the tree construction (the box-drawing
rendering of the finished tree is not modelled), for an origin the container
knows and that carries no wiring/injection metadata of its own, so that
`add_root_injections` — which reaches into the excluded declaration
extractor — contributes nothing and the root node is the node built for the
origin with an empty ancestor set. -/
def tree_debug_info (env : DebugEnv) (origin : Dep) (depth : Int) :
    DebugTreeNode :=
  buildDep env (normDepth depth) (normDepth depth + 1) [] origin

/-! ### Basic lemmas about the Python equality and container models -/

theorem implEq_iff (a b : ImplementationDependency) :
    implEq a b = true ↔
      a.interface = b.interface ∧ a.implementation = b.implementation := by
  constructor
  · intro h
    simp only [implEq, Bool.and_eq_true, beq_iff_eq] at h
    exact ⟨h.1.2, h.2⟩
  · rintro ⟨h1, h2⟩
    simp [implEq, implHash, h1, h2]

theorem implEq_refl (a : ImplementationDependency) : implEq a a = true := by
  simp [implEq_iff]

theorem implEq_trans {a b c : ImplementationDependency}
    (h1 : implEq a b = true) (h2 : implEq b c = true) : implEq a c = true := by
  rw [implEq_iff] at h1 h2 ⊢
  exact ⟨h1.1.trans h2.1, h1.2.trans h2.2⟩

theorem depEq_refl (d : Dep) : depEq d d = true := by
  cases d <;> simp [depEq, implEq_refl]

theorem inImplementations_of_depEq {xs : List ImplementationDependency}
    {d d' : Dep} (h : depEq d d' = true)
    (hmem : inImplementations xs d = true) :
    inImplementations xs d' = true := by
  cases d with
  | key n => simp [inImplementations] at hmem
  | impl i =>
    cases d' with
    | key m => simp [depEq] at h
    | impl i' =>
      simp only [depEq] at h
      simp only [inImplementations, List.any_eq_true] at hmem ⊢
      obtain ⟨j, hj, hji⟩ := hmem
      exact ⟨j, hj, implEq_trans hji h⟩

theorem dictContains_append (m : List (Dep × Dep)) (d v d' : Dep) :
    dictContains (m ++ [(d, v)]) d' = (dictContains m d' || depEq d d') := by
  induction m with
  | nil =>
    simp only [List.nil_append, dictContains, dictLookup, List.find?]
    cases h : depEq d d' <;> simp [h]
  | cons p rest ih =>
    cases h : depEq p.1 d' with
    | false => simpa [dictContains, dictLookup, List.find?, h] using ih
    | true => simp [dictContains, dictLookup, List.find?, h]

theorem dictContains_dictInsert_self (m : List (Dep × Dep)) (d v : Dep)
    (h : dictContains m d = false) :
    dictContains (dictInsert m d v) d = true := by
  simp only [dictInsert, h, Bool.false_eq_true, if_false]
  simp [dictContains_append, depEq_refl]

/-! ### C10: resolution never changes the extension of `exists` -/

/-- C10: for every identifier `d'` and every provider state, a
`maybe_provide` call (for any identifier, successful or not) never changes
the value of `exists d'`: the only mutation is the insertion of the frozen
target of a permanent implementation dependency under the dependency itself,
which is already owned through the implementation set, so the set of
identifiers the provider claims is invariant under resolution. -/
theorem maybe_provide_preserves_exists {V : Type}
    (container : Dep → Option (DependencyValue V)) (renv : Nat → Nat → Dep)
    (s : IndirectProvider) (t : Nat) (d d' : Dep) :
    ((maybe_provide container renv s t d).state).exists' d' = s.exists' d' := by
  cases hlook : dictLookup s.indirect d with
  | some target =>
    cases hc : container target <;> simp [maybe_provide, hlook, hc]
  | none =>
    cases d with
    | key n => simp [maybe_provide, hlook, inImplementations]
    | impl i =>
      cases hmem : inImplementations s.implementations (.impl i) with
      | false => simp [maybe_provide, hlook, hmem]
      | true =>
        cases hperm : i.permanent with
        | false =>
          cases hc : container (renv i.implementation t) <;>
            simp [maybe_provide, hlook, hmem, hperm, hc]
        | true =>
          have hcont : dictContains s.indirect (.impl i) = false := by
            simp [dictContains, hlook]
          have key_eq : ∀ e : Dep, depEq (Dep.impl i) e = true →
              inImplementations s.implementations e = true := fun e he =>
            inImplementations_of_depEq he hmem
          have hmain :
              (IndirectProvider.exists'
                { s with indirect :=
                    dictInsert s.indirect (.impl i) (renv i.implementation t) } d')
                = s.exists' d' := by
            simp only [IndirectProvider.exists', dictInsert, hcont,
              Bool.false_eq_true, if_false, dictContains_append]
            cases he : depEq (Dep.impl i) d' with
            | false => simp
            | true => simp [key_eq d' he, hcont]
          cases hc : container (renv i.implementation t) <;>
            simp [maybe_provide, hlook, hmem, hperm, hc, hmain]

/-! ### C1: the scope policy of resolved values -/

/-- C1: a value resolved through `maybe_provide` reports scope `none` for a
non-permanent implementation dependency regardless of the target's scope; for
a permanent implementation dependency being resolved for the first time, and
for an entry of the indirect map (an implicit link or an already-frozen
permanent dependency), the reported scope equals the scope of the resolved
target's own `DependencyValue`. -/
theorem maybe_provide_scope_policy {V : Type} :
    (∀ (container : Dep → Option (DependencyValue V)) renv s t
        (i : ImplementationDependency) (v : DependencyValue V),
      i.permanent = false →
      dictLookup s.indirect (.impl i) = none →
      (maybe_provide container renv s t (.impl i)).outcome = .value v →
      v.scope = none)
    ∧ (∀ (container : Dep → Option (DependencyValue V)) renv s t
        (i : ImplementationDependency) (value : DependencyValue V),
      i.permanent = true →
      dictLookup s.indirect (.impl i) = none →
      inImplementations s.implementations (.impl i) = true →
      container (renv i.implementation t) = some value →
      (maybe_provide container renv s t (.impl i)).outcome
        = .value ⟨value.unwrapped, value.scope⟩)
    ∧ (∀ (container : Dep → Option (DependencyValue V)) renv s t d target
        (value : DependencyValue V),
      dictLookup s.indirect d = some target →
      container target = some value →
      (maybe_provide container renv s t d).outcome = .value value) := by
  refine ⟨?nonperm, ?perm, ?indirect⟩
  · intro container renv s t i v hperm hlook hout
    cases hmem : inImplementations s.implementations (.impl i) with
    | false => simp [maybe_provide, hlook, hmem] at hout
    | true =>
      cases hc : container (renv i.implementation t) with
      | none => simp [maybe_provide, hlook, hmem, hc] at hout
      | some value =>
        simp [maybe_provide, hlook, hmem, hperm, hc] at hout
        simp [← hout]
  · intro container renv s t i value hperm hlook hmem hc
    simp [maybe_provide, hlook, hmem, hperm, hc]
  · intro container renv s t d target value hlook hc
    simp [maybe_provide, hlook, hc]

/-! ### C2: how often the resolver function is invoked -/

theorem runProvides_of_contains {V : Type} (renv : Nat → Nat → Dep) (d : Dep)
    (cs : List (Dep → Option (DependencyValue V))) (s : IndirectProvider)
    (t : Nat) (h : dictContains s.indirect d = true) :
    runProvides renv d cs s t = (s, t) := by
  induction cs with
  | nil => rfl
  | cons c cs ih =>
    obtain ⟨target, hlook⟩ : ∃ tg, dictLookup s.indirect d = some tg := by
      cases hl : dictLookup s.indirect d with
      | none => simp [dictContains, hl] at h
      | some tg => exact ⟨tg, rfl⟩
    cases hc : c target <;> simp [runProvides, maybe_provide, hlook, hc, ih]

theorem runProvides_permanent_le {V : Type} (renv : Nat → Nat → Dep)
    (i : ImplementationDependency) (hperm : i.permanent = true) :
    ∀ (cs : List (Dep → Option (DependencyValue V))) (s : IndirectProvider)
      (t : Nat), (runProvides renv (.impl i) cs s t).2 ≤ t + 1 := by
  intro cs
  induction cs with
  | nil => intro s t; simp [runProvides]
  | cons c cs ih =>
    intro s t
    cases hlook : dictLookup s.indirect (.impl i) with
    | some target =>
      have h : dictContains s.indirect (.impl i) = true := by
        simp [dictContains, hlook]
      cases hc : c target <;>
        simp [runProvides, maybe_provide, hlook, hc,
          runProvides_of_contains renv _ cs s t h]
    | none =>
      cases hmem : inImplementations s.implementations (.impl i) with
      | false => simpa [runProvides, maybe_provide, hlook, hmem] using ih s t
      | true =>
        have hcont : dictContains
            (dictInsert s.indirect (.impl i) (renv i.implementation t)) (.impl i)
              = true := by
          apply dictContains_dictInsert_self
          simp [dictContains, hlook]
        have hrun := runProvides_of_contains renv (Dep.impl i) cs
          { s with indirect :=
              dictInsert s.indirect (.impl i) (renv i.implementation t) }
          (t + 1) hcont
        cases hc : c (renv i.implementation t) <;>
          simp [runProvides, maybe_provide, hlook, hmem, hperm, hc, hrun]

/-- C2: across any sequence of `maybe_provide` calls for one implementation
dependency (one container per call), a permanent dependency's resolver is
invoked at most once — the resolver clock advances by at most one, because
the first resolution freezes the target in the provider's indirect map —
while for a non-permanent dependency every call invokes the resolver exactly
once (the clock advances by exactly the number of calls) and the provider
state never changes. -/
theorem resolver_invocation_counts {V : Type} :
    (∀ (renv : Nat → Nat → Dep) (i : ImplementationDependency)
        (cs : List (Dep → Option (DependencyValue V)))
        (s : IndirectProvider) (t : Nat),
      i.permanent = true →
      (runProvides renv (.impl i) cs s t).2 - t ≤ 1)
    ∧ (∀ (renv : Nat → Nat → Dep) (i : ImplementationDependency)
        (cs : List (Dep → Option (DependencyValue V)))
        (s : IndirectProvider) (t : Nat),
      i.permanent = false →
      inImplementations s.implementations (.impl i) = true →
      dictContains s.indirect (.impl i) = false →
      runProvides renv (.impl i) cs s t = (s, t + cs.length)) := by
  constructor
  · intro renv i cs s t hperm
    have h := runProvides_permanent_le (V := V) renv i hperm cs s t
    omega
  · intro renv i cs
    induction cs with
    | nil => intro s t _ _ _; simp [runProvides]
    | cons c cs ih =>
      intro s t hperm hmem hcont
      have hlook : dictLookup s.indirect (.impl i) = none := by
        cases hl : dictLookup s.indirect (.impl i) with
        | none => rfl
        | some tg => simp [dictContains, hl] at hcont
      have hrest := ih s (t + 1) hperm hmem hcont
      cases hc : c (renv i.implementation t) <;>
        simp [runProvides, maybe_provide, hlook, hmem, hperm, hc, hrest] <;>
        omega

/-! ### Concrete fixtures for the witnesses -/

/-- A non-permanent implementation dependency. -/
def iNP : ImplementationDependency :=
  { interface := 0, implementation := 0, permanent := false }

/-- A permanent implementation dependency. -/
def iP : ImplementationDependency :=
  { interface := 1, implementation := 1, permanent := true }

/-- A provider owning only `iNP`. -/
def sNP : IndirectProvider :=
  { implementations := [iNP], implicits_registered := false, indirect := [] }

/-- A provider owning only `iP`, not yet resolved. -/
def sP : IndirectProvider :=
  { implementations := [iP], implicits_registered := false, indirect := [] }

/-- A provider owning `iP` whose target has been frozen in the indirect
map. -/
def sPFrozen : IndirectProvider :=
  { implementations := [iP], implicits_registered := false,
    indirect := [(.impl iP, .key 5)] }

/-- A container resolving every identifier to the singleton value `7`. -/
def cSing : Dep → Option (DependencyValue Nat) :=
  fun _ => some { unwrapped := 7, scope := some .singleton }

/-- A resolver environment sending every resolver to target `Dep.key 5`. -/
def renv0 : Nat → Nat → Dep := fun _ _ => .key 5

/-- Witness for `maybe_provide_scope_policy` at concrete inputs: the
non-permanent resolution reports no scope, the first permanent resolution and
the frozen-target resolution report the target's singleton scope. -/
theorem maybe_provide_scope_policy_witness :
    (DependencyValue.mk (7 : Nat) none).scope = none
    ∧ (maybe_provide cSing renv0 sP 0 (.impl iP)).outcome
        = .value { unwrapped := 7, scope := some .singleton }
    ∧ (maybe_provide cSing renv0 sPFrozen 0 (.impl iP)).outcome
        = .value { unwrapped := 7, scope := some .singleton } := by
  refine ⟨?_, ?_, ?_⟩
  · exact maybe_provide_scope_policy.1 cSing renv0 sNP 0 iNP
      { unwrapped := 7, scope := none } (by decide) (by decide) (by decide)
  · exact maybe_provide_scope_policy.2.1 cSing renv0 sP 0 iP
      { unwrapped := 7, scope := some .singleton } (by decide) (by decide)
      (by decide) (by decide)
  · exact maybe_provide_scope_policy.2.2 cSing renv0 sPFrozen 0 (.impl iP)
      (.key 5) { unwrapped := 7, scope := some .singleton } (by decide)
      (by decide)

/-- Witness for `resolver_invocation_counts` at concrete inputs: two calls
for the permanent dependency make at most one resolver invocation, two calls
for the non-permanent one make exactly two. -/
theorem resolver_invocation_counts_witness :
    (runProvides renv0 (.impl iP) [cSing, cSing] sP 0).2 - 0 ≤ 1
    ∧ runProvides renv0 (.impl iNP) [cSing, cSing] sNP 0 = (sNP, 0 + 2) := by
  constructor
  · exact resolver_invocation_counts.1 renv0 iP [cSing, cSing] sP 0 (by decide)
  · exact resolver_invocation_counts.2 renv0 iNP [cSing, cSing] sNP 0
      (by decide) (by decide) (by decide)

/-! ### C3: what `maybe_debug` does and does not do -/

/-- A trivial `debug_repr` model. -/
def dr0 : Dep → String := fun _ => ""

/-- C3 counterexample: `maybe_debug` on an implementation dependency whose
target is not frozen in the indirect map advances the resolver clock — the
source calls `impl.implementation()` to obtain the target to display — so it
is not true that it never triggers a resolver function. -/
theorem maybe_debug_calls_resolver_counterexample :
    (maybe_debug dr0 renv0 sNP 0 (.impl iNP)).2 ≠ 0 := by decide

/-- C3 amended: `maybe_debug` answers for exactly the identifiers the
provider owns (the same ownership test as `exists`/`maybe_provide`); it takes
no container (so it can instantiate nothing) and never writes the provider
state (the embedding returns none, faithfully to the source, which only
reads `self`); it makes no resolver call for implicit entries and for
implementation dependencies whose target is already frozen in the indirect
map, but for an implementation dependency not in the indirect map it invokes
the resolver function exactly once, without caching the result. -/
theorem maybe_debug_frame_effects (debugRepr : Dep → String)
    (renv : Nat → Nat → Dep) (s : IndirectProvider) (t : Nat) (d : Dep) :
    ((maybe_debug debugRepr renv s t d).1.isSome = s.exists' d)
    ∧ ((maybe_debug debugRepr renv s t d).2
        = if inImplementations s.implementations d = true
            ∧ dictContains s.indirect d = false then t + 1 else t) := by
  cases d with
  | key n =>
    cases hlook : dictLookup s.indirect (.key n) with
    | some target =>
      refine ⟨?_, ?_⟩ <;>
        simp [maybe_debug, inImplementations, IndirectProvider.exists',
          dictContains, hlook]
    | none =>
      refine ⟨?_, ?_⟩ <;>
        simp [maybe_debug, inImplementations, IndirectProvider.exists',
          dictContains, hlook]
  | impl i =>
    cases hmem : inImplementations s.implementations (.impl i) with
    | false =>
      cases hlook : dictLookup s.indirect (.impl i) with
      | some target =>
        refine ⟨?_, ?_⟩ <;>
          simp [maybe_debug, IndirectProvider.exists', dictContains, hlook, hmem]
      | none =>
        refine ⟨?_, ?_⟩ <;>
          simp [maybe_debug, IndirectProvider.exists', dictContains, hlook, hmem]
    | true =>
      cases hlook : dictLookup s.indirect (.impl i) with
      | some target =>
        refine ⟨?_, ?_⟩ <;>
          simp [maybe_debug, IndirectProvider.exists', dictContains, hlook, hmem]
      | none =>
        refine ⟨?_, ?_⟩ <;>
          simp [maybe_debug, IndirectProvider.exists', dictContains, hlook, hmem]

/-! ### C4: what `clone` copies -/

/-- C4 counterexample: cloning a provider holding the frozen target of a
permanent implementation dependency with `keep_singletons_cache = false` does
not drop the memoized resolution — the indirect map is copied wholesale — so
the clone's next resolution finds the frozen target and performs no resolver
invocation, contrary to the claim that the clone re-invokes the resolver. -/
theorem clone_keeps_memoized_target_counterexample :
    dictLookup (IndirectProvider.clone sPFrozen false).indirect (.impl iP)
      = some (.key 5)
    ∧ (maybe_provide cSing renv0 (IndirectProvider.clone sPFrozen false) 0
        (.impl iP)).clock = 0 := by
  constructor <;> rfl

/-- C4 amended: `clone` returns a copy of the complete registration state —
implementations, implicit flag and the whole indirect map, the memoized
targets included — regardless of the `keep_singletons_cache` argument (in the
pure embedding the copy is the state itself); and a registration accepted by
the clone is an identifier the original does not claim via `exists`, while
the clone's successor state does claim it, so registrations on either side
are never visible on the other. -/
theorem clone_copies_registration_state :
    (∀ (s : IndirectProvider) (b : Bool), s.clone b = s)
    ∧ (∀ (s : IndirectProvider) (b : Bool) (interface implementation : Nat)
        (permanent : Bool) (impl : ImplementationDependency)
        (s' : IndirectProvider),
      register_implementation (s.clone b) interface implementation permanent
        = (.ok impl, s') →
      s.exists' (.impl impl) = false ∧ s'.exists' (.impl impl) = true) := by
  constructor
  · intro s b; rfl
  · intro s b interface implementation permanent impl s' hreg
    have hclone : s.clone b = s := rfl
    rw [hclone] at hreg
    cases hex : s.exists'
        (.impl { interface := interface, implementation := implementation,
                 permanent := permanent }) with
    | true => simp [register_implementation, assert_not_duplicate, hex] at hreg
    | false =>
      simp only [register_implementation, assert_not_duplicate, hex,
        Bool.false_eq_true, if_false, Prod.mk.injEq, Except.ok.injEq] at hreg
      obtain ⟨himpl, hs'⟩ := hreg
      subst hs'
      have hnotin : (s.implementations.any fun j =>
          implEq j { interface := interface, implementation := implementation,
                     permanent := permanent }) = false := by
        have h2 := hex
        simp only [IndirectProvider.exists', Bool.or_eq_false_iff,
          inImplementations] at h2
        exact h2.2
      constructor
      · rw [← himpl]; exact hex
      · rw [← himpl]
        simp only [IndirectProvider.exists', inImplementations, setAdd, hnotin,
          Bool.false_eq_true, if_false]
        simp [List.any_append, implEq_refl]

/-- Witness for `clone_copies_registration_state` at concrete inputs: the
clone equals the original state, and an identifier freshly registered on the
clone is not claimed by the original. -/
theorem clone_copies_registration_state_witness :
    IndirectProvider.clone sPFrozen false = sPFrozen
    ∧ sPFrozen.exists'
        (.impl { interface := 2, implementation := 2, permanent := false })
        = false := by
  refine ⟨clone_copies_registration_state.1 sPFrozen false, ?_⟩
  exact (clone_copies_registration_state.2 sPFrozen false 2 2 false
    { interface := 2, implementation := 2, permanent := false }
    { implementations := [iP,
        { interface := 2, implementation := 2, permanent := false }],
      implicits_registered := false, indirect := [(.impl iP, .key 5)] }
    (by rfl)).1

/-! ### C8: the implicit table is set once, atomically -/

theorem checkKeys_error_of_exists (s : IndirectProvider) :
    ∀ (table : List (Dep × Dep)) (k v : Dep), (k, v) ∈ table →
      s.exists' k = true →
      ∃ d, checkKeys s table = .error (.duplicate d) := by
  intro table
  induction table with
  | nil => intro k v hkv _; simp at hkv
  | cons p rest ih =>
    intro k v hkv hex
    cases hp : s.exists' p.1 with
    | true => exact ⟨p.1, by simp [checkKeys, assert_not_duplicate, hp]⟩
    | false =>
      rcases List.mem_cons.mp hkv with heq | hmem
      · rw [← heq] at hp
        simp only at hp
        rw [hex] at hp
        cases hp
      · obtain ⟨d, hd⟩ := ih k v hmem hex
        exact ⟨d, by simp [checkKeys, assert_not_duplicate, hp, hd]⟩

/-- C8: `register_implicits` succeeds at most once per provider — when the
once-only flag is set it fails with the "already defined" error, which is a
different constructor from the per-key duplicate error, and in particular a
second call after a successful one fails that way; and when some key of the
supplied table is already claimed, the call fails with a duplicate error and
returns the input state unchanged — no key is registered and the flag is not
set, because the source checks every key before mutating anything. -/
theorem register_implicits_once_and_atomic :
    (∀ (s : IndirectProvider) (table : List (Dep × Dep)),
      s.implicits_registered = true →
      register_implicits s table = (.error .alreadyDefined, s))
    ∧ (∀ (s s' : IndirectProvider) (table table' : List (Dep × Dep)),
      register_implicits s table = (.ok (), s') →
      register_implicits s' table' = (.error .alreadyDefined, s'))
    ∧ (∀ (s : IndirectProvider) (table : List (Dep × Dep)) (k v : Dep),
      s.implicits_registered = false →
      (k, v) ∈ table → s.exists' k = true →
      (∃ d, (register_implicits s table).1 = .error (.duplicate d))
        ∧ (register_implicits s table).2 = s) := by
  refine ⟨?once, ?second, ?atomic⟩
  · intro s table h
    simp [register_implicits, h]
  · intro s s' table table' hreg
    have hs' : s'.implicits_registered = true := by
      cases hflag : s.implicits_registered with
      | true => simp [register_implicits, hflag] at hreg
      | false =>
        cases hchk : checkKeys s table with
        | error e => simp [register_implicits, hflag, hchk] at hreg
        | ok u =>
          simp only [register_implicits, hflag, Bool.false_eq_true, if_false,
            hchk, Prod.mk.injEq] at hreg
          rw [← hreg.2]
    simp [register_implicits, hs']
  · intro s table k v hflag hkv hex
    obtain ⟨d, hd⟩ := checkKeys_error_of_exists s table k v hkv hex
    exact ⟨⟨d, by simp [register_implicits, hflag, hd]⟩,
      by simp [register_implicits, hflag, hd]⟩

/-- A provider whose implicit table has already been registered. -/
def sImp : IndirectProvider :=
  { implementations := [], implicits_registered := true, indirect := [] }

/-- Witness for `register_implicits_once_and_atomic` at concrete inputs. -/
theorem register_implicits_once_and_atomic_witness :
    register_implicits sImp [] = (.error .alreadyDefined, sImp)
    ∧ (register_implicits sPFrozen [(.impl iP, .key 9)]).2 = sPFrozen := by
  refine ⟨register_implicits_once_and_atomic.1 sImp [] (by rfl), ?_⟩
  exact (register_implicits_once_and_atomic.2.2 sPFrozen [(.impl iP, .key 9)]
    (.impl iP) (.key 9) (by rfl) (by simp) (by decide)).2

/-! ### C9: equality and hashing ignore the `permanent` flag -/

/-- C9: the hash and equality of `ImplementationDependency` are determined by
the `(interface, resolver)` pair alone — two records with equal interface and
equal resolver are equal with equal hashes whatever their `permanent` flags —
and therefore registering a second implementation for the same interface and
resolver in one provider is rejected as a duplicate even when only the
permanence differs. -/
theorem implementation_dependency_eq_ignores_permanent :
    (∀ a b : ImplementationDependency,
      a.interface = b.interface → a.implementation = b.implementation →
      implEq a b = true ∧ implHash a = implHash b)
    ∧ (∀ (s : IndirectProvider) (interface implementation : Nat) (p p' : Bool)
        (impl : ImplementationDependency) (s' : IndirectProvider),
      register_implementation s interface implementation p = (.ok impl, s') →
      register_implementation s' interface implementation p'
        = (.error (.duplicate (.impl { interface := interface,
                                       implementation := implementation,
                                       permanent := p' })), s')) := by
  constructor
  · intro a b h1 h2
    exact ⟨(implEq_iff a b).mpr ⟨h1, h2⟩, by simp [implHash, h1, h2]⟩
  · intro s interface implementation p p' impl s' hreg
    cases hex : s.exists'
        (.impl { interface := interface, implementation := implementation,
                 permanent := p }) with
    | true => simp [register_implementation, assert_not_duplicate, hex] at hreg
    | false =>
      simp only [register_implementation, assert_not_duplicate, hex,
        Bool.false_eq_true, if_false, Prod.mk.injEq, Except.ok.injEq] at hreg
      obtain ⟨himpl, hs'⟩ := hreg
      subst hs'
      have hnotin : (s.implementations.any fun j =>
          implEq j { interface := interface, implementation := implementation,
                     permanent := p }) = false := by
        have h2 := hex
        simp only [IndirectProvider.exists', Bool.or_eq_false_iff,
          inImplementations] at h2
        exact h2.2
      have heqpp : implEq
          { interface := interface, implementation := implementation,
            permanent := p }
          { interface := interface, implementation := implementation,
            permanent := p' } = true :=
        (implEq_iff _ _).mpr ⟨rfl, rfl⟩
      have hexists : (IndirectProvider.exists'
          { s with implementations := (setAdd s.implementations
              { interface := interface, implementation := implementation,
                permanent := p }) }
          (.impl { interface := interface, implementation := implementation,
                   permanent := p' })) = true := by
        simp only [IndirectProvider.exists', inImplementations, setAdd, hnotin,
          Bool.false_eq_true, if_false]
        simp [List.any_append, heqpp]
      simp [register_implementation, assert_not_duplicate, hexists]

/-- The provider state after registering the permanent implementation
`(0, 0)` on a fresh provider. -/
def s9 : IndirectProvider :=
  { implementations := [{ interface := 0, implementation := 0, permanent := true }],
    implicits_registered := false, indirect := [] }

/-- Witness for `implementation_dependency_eq_ignores_permanent` at concrete
inputs: records differing only in permanence are equal, and the second
registration is rejected as a duplicate. -/
theorem implementation_dependency_eq_ignores_permanent_witness :
    implEq { interface := 0, implementation := 0, permanent := true }
        { interface := 0, implementation := 0, permanent := false } = true
    ∧ register_implementation s9 0 0 false
        = (.error (.duplicate (.impl { interface := 0, implementation := 0,
                                       permanent := false })), s9) := by
  constructor
  · exact (implementation_dependency_eq_ignores_permanent.1
      { interface := 0, implementation := 0, permanent := true }
      { interface := 0, implementation := 0, permanent := false } rfl rfl).1
  · exact implementation_dependency_eq_ignores_permanent.2
      IndirectProvider.init 0 0 true false
      { interface := 0, implementation := 0, permanent := true } s9 (by rfl)

/-! ### C5: required vs. optional injection failures -/

/-- C5: when resolving a blueprint entry's dependency fails with
`DependencyNotFoundError` (`container dep = none`): a required entry makes
the whole injection loop raise, while an optional entry is silently skipped —
no value is injected for it and the loop proceeds; and at the call level the
error propagates to the caller exactly when the injection raised, the `.ok`
result holding the wrapped callable's output being absent, so the wrapped
callable is never invoked. -/
theorem injection_required_vs_optional {V W : Type} :
    (∀ (container : Dep → Option V) (inj : Injection) (rest : List Injection)
        (kwargs : List (String × V)) (dirty : Bool) (dep : Dep),
      inj.dependency = some dep → hasKey kwargs inj.arg_name = false →
      container dep = none → inj.required = true →
      injectLoop container (inj :: rest) kwargs dirty = .error ())
    ∧ (∀ (container : Dep → Option V) (inj : Injection) (rest : List Injection)
        (kwargs : List (String × V)) (dirty : Bool) (dep : Dep),
      inj.dependency = some dep → hasKey kwargs inj.arg_name = false →
      container dep = none → inj.required = false →
      injectLoop container (inj :: rest) kwargs dirty
        = injectLoop container rest kwargs dirty)
    ∧ (∀ (w : InjectedWrapper V W) (container : Dep → Option V)
        (args : List V) (kwargs : List (String × V)),
      w.call container args kwargs = .error ()
        ↔ inject_kwargs container w.blueprint
            (w.injection_offset + args.length) kwargs = .error ()) := by
  refine ⟨?req, ?opt, ?call⟩
  · intro container inj rest kwargs dirty dep hdep hkey hc hreq
    simp [injectLoop, hdep, hkey, hc, hreq]
  · intro container inj rest kwargs dirty dep hdep hkey hc hreq
    simp [injectLoop, hdep, hkey, hc, hreq]
  · intro w container args kwargs
    cases h : inject_kwargs container w.blueprint
        (w.injection_offset + args.length) kwargs with
    | error e => cases e; simp [InjectedWrapper.call, h]
    | ok p => obtain ⟨kw, b⟩ := p; simp [InjectedWrapper.call, h]

/-- A container in which nothing resolves. -/
def cNone : Dep → Option Nat := fun _ => none

/-- A required injection entry. -/
def injR : Injection := { arg_name := "a", required := true, dependency := some (.key 0) }

/-- An optional injection entry. -/
def injO : Injection := { arg_name := "b", required := false, dependency := some (.key 1) }

/-- Witness for `injection_required_vs_optional` at concrete inputs: a
required entry whose dependency is missing raises, an optional one is
skipped. -/
theorem injection_required_vs_optional_witness :
    injectLoop cNone [injR] ([] : List (String × Nat)) false = .error ()
    ∧ injectLoop cNone [injO] ([] : List (String × Nat)) false
        = injectLoop cNone [] [] false := by
  constructor
  · exact (injection_required_vs_optional (W := Nat)).1 cNone injR [] [] false
      (.key 0) rfl (by decide) rfl rfl
  · exact (injection_required_vs_optional (W := Nat)).2.1 cNone injO [] [] false
      (.key 1) rfl (by decide) rfl rfl

/-! ### C6: kwargs are copied on write and only missing entries are added -/

/-- Keyword-argument lookup, `kwargs[name]`. -/
def dictGet {V : Type} (kwargs : List (String × V)) (name : String) : Option V :=
  (kwargs.find? (fun p => p.1 == name)).map (·.2)

theorem dictGet_none_of_not_hasKey {V : Type} (kwargs : List (String × V))
    (name : String) (h : hasKey kwargs name = false) :
    dictGet kwargs name = none := by
  induction kwargs with
  | nil => rfl
  | cons p rest ih =>
    simp only [hasKey, List.any_cons, Bool.or_eq_false_iff] at h
    simp only [dictGet, List.find?, h.1]
    exact ih (by simpa [hasKey] using h.2)

theorem hasKey_append_singleton {V : Type} (kwargs : List (String × V))
    (nm name : String) (arg : V) :
    hasKey (kwargs ++ [(nm, arg)]) name = (hasKey kwargs name || (nm == name)) := by
  simp [hasKey, List.any_append]

theorem dictGet_append_of_hasKey {V : Type} (kwargs l : List (String × V))
    (name : String) (h : hasKey kwargs name = true) :
    dictGet (kwargs ++ l) name = dictGet kwargs name := by
  induction kwargs with
  | nil => simp [hasKey] at h
  | cons p rest ih =>
    cases hp : p.1 == name with
    | true => simp [dictGet, List.find?, hp]
    | false =>
      simp only [hasKey, List.any_cons, hp, Bool.false_or] at h
      simpa [dictGet, List.find?, hp] using ih h

theorem dictGet_append_new {V : Type} (kwargs : List (String × V))
    (nm : String) (arg : V) (h : hasKey kwargs nm = false) :
    dictGet (kwargs ++ [(nm, arg)]) nm = some arg := by
  induction kwargs with
  | nil => simp [dictGet, List.find?]
  | cons p rest ih =>
    simp only [hasKey, List.any_cons, Bool.or_eq_false_iff] at h
    simp only [List.cons_append, dictGet, List.find?, h.1]
    exact ih (by simpa [hasKey] using h.2)

theorem dictSet_new {V : Type} (kwargs : List (String × V)) (nm : String)
    (arg : V) (h : hasKey kwargs nm = false) :
    dictSet kwargs nm arg = kwargs ++ [(nm, arg)] := by
  simp [dictSet, h]

theorem injectLoop_dirty_mono {V : Type} (container : Dep → Option V) :
    ∀ (injs : List Injection) (kwargs kw : List (String × V)) (b : Bool),
      injectLoop container injs kwargs true = .ok (kw, b) → b = true := by
  intro injs
  induction injs with
  | nil =>
    intro kwargs kw b h
    simp only [injectLoop, Except.ok.injEq, Prod.mk.injEq] at h
    exact h.2.symm
  | cons inj rest ih =>
    intro kwargs kw b h
    cases hdep : inj.dependency with
    | none =>
      rw [injectLoop, hdep] at h
      exact ih kwargs kw b h
    | some dep =>
      rw [injectLoop, hdep] at h
      cases hkey : hasKey kwargs inj.arg_name with
      | true =>
        rw [hkey] at h
        exact ih kwargs kw b (by simpa using h)
      | false =>
        rw [hkey] at h
        simp only [Bool.false_eq_true, if_false] at h
        cases hc : container dep with
        | some arg =>
          rw [hc] at h
          exact ih _ kw b h
        | none =>
          rw [hc] at h
          cases hreq : inj.required with
          | true => rw [hreq] at h; simp at h
          | false => rw [hreq] at h; exact ih kwargs kw b (by simpa using h)

theorem injectLoop_clean_id {V : Type} (container : Dep → Option V) :
    ∀ (injs : List Injection) (kwargs kw : List (String × V)),
      injectLoop container injs kwargs false = .ok (kw, false) → kw = kwargs := by
  intro injs
  induction injs with
  | nil =>
    intro kwargs kw h
    simp only [injectLoop, Except.ok.injEq, Prod.mk.injEq] at h
    exact h.1.symm
  | cons inj rest ih =>
    intro kwargs kw h
    cases hdep : inj.dependency with
    | none => rw [injectLoop, hdep] at h; exact ih kwargs kw h
    | some dep =>
      rw [injectLoop, hdep] at h
      cases hkey : hasKey kwargs inj.arg_name with
      | true => rw [hkey] at h; exact ih kwargs kw (by simpa using h)
      | false =>
        rw [hkey] at h
        simp only [Bool.false_eq_true, if_false] at h
        cases hc : container dep with
        | some arg =>
          rw [hc] at h
          have := injectLoop_dirty_mono container rest _ kw false h
          cases this
        | none =>
          rw [hc] at h
          cases hreq : inj.required with
          | true => rw [hreq] at h; simp at h
          | false => rw [hreq] at h; exact ih kwargs kw (by simpa using h)

theorem injectLoop_preserves_existing {V : Type} (container : Dep → Option V) :
    ∀ (injs : List Injection) (kwargs kw : List (String × V)) (dirty b : Bool)
      (name : String),
      injectLoop container injs kwargs dirty = .ok (kw, b) →
      hasKey kwargs name = true →
      dictGet kw name = dictGet kwargs name := by
  intro injs
  induction injs with
  | nil =>
    intro kwargs kw dirty b name h hk
    simp only [injectLoop, Except.ok.injEq, Prod.mk.injEq] at h
    rw [← h.1]
  | cons inj rest ih =>
    intro kwargs kw dirty b name h hk
    cases hdep : inj.dependency with
    | none => rw [injectLoop, hdep] at h; exact ih kwargs kw dirty b name h hk
    | some dep =>
      rw [injectLoop, hdep] at h
      cases hkey : hasKey kwargs inj.arg_name with
      | true =>
        rw [hkey] at h
        exact ih kwargs kw dirty b name (by simpa using h) hk
      | false =>
        rw [hkey] at h
        simp only [Bool.false_eq_true, if_false] at h
        cases hc : container dep with
        | some arg =>
          simp only [hc] at h
          rw [dictSet_new kwargs inj.arg_name arg hkey] at h
          have hk' : hasKey (kwargs ++ [(inj.arg_name, arg)]) name = true := by
            rw [hasKey_append_singleton, hk]; rfl
          have hrec := ih _ kw true b name h hk'
          rw [hrec, dictGet_append_of_hasKey kwargs _ name hk]
        | none =>
          rw [hc] at h
          cases hreq : inj.required with
          | true => rw [hreq] at h; simp at h
          | false =>
            rw [hreq] at h
            exact ih kwargs kw dirty b name (by simpa using h) hk

theorem injectLoop_new_keys {V : Type} (container : Dep → Option V) :
    ∀ (injs : List Injection) (kwargs kw : List (String × V)) (dirty b : Bool)
      (name : String) (v : V),
      injectLoop container injs kwargs dirty = .ok (kw, b) →
      hasKey kwargs name = false →
      dictGet kw name = some v →
      ∃ inj, inj ∈ injs ∧ inj.arg_name = name
        ∧ ∃ dep, inj.dependency = some dep ∧ container dep = some v := by
  intro injs
  induction injs with
  | nil =>
    intro kwargs kw dirty b name v h hk hv
    simp only [injectLoop, Except.ok.injEq, Prod.mk.injEq] at h
    rw [← h.1, dictGet_none_of_not_hasKey kwargs name hk] at hv
    cases hv
  | cons inj rest ih =>
    intro kwargs kw dirty b name v h hk hv
    cases hdep : inj.dependency with
    | none =>
      rw [injectLoop, hdep] at h
      obtain ⟨i, hi, hrest⟩ := ih kwargs kw dirty b name v h hk hv
      exact ⟨i, List.mem_cons_of_mem _ hi, hrest⟩
    | some dep =>
      rw [injectLoop, hdep] at h
      cases hkey : hasKey kwargs inj.arg_name with
      | true =>
        rw [hkey] at h
        obtain ⟨i, hi, hrest⟩ := ih kwargs kw dirty b name v (by simpa using h) hk hv
        exact ⟨i, List.mem_cons_of_mem _ hi, hrest⟩
      | false =>
        rw [hkey] at h
        simp only [Bool.false_eq_true, if_false] at h
        cases hc : container dep with
        | some arg =>
          simp only [hc] at h
          rw [dictSet_new kwargs inj.arg_name arg hkey] at h
          by_cases hname : inj.arg_name = name
          · subst hname
            have hk' : hasKey (kwargs ++ [(inj.arg_name, arg)]) inj.arg_name
                = true := by
              rw [hasKey_append_singleton]; simp
            have hpres := injectLoop_preserves_existing container rest _ kw
              true b inj.arg_name h hk'
            rw [hpres, dictGet_append_new kwargs inj.arg_name arg hkey] at hv
            obtain rfl : arg = v := by injection hv
            exact ⟨inj, List.mem_cons_self _ _, rfl, dep, hdep, hc⟩
          · have hk2 : hasKey (kwargs ++ [(inj.arg_name, arg)]) name = false := by
              rw [hasKey_append_singleton, hk]
              simp [hname]
            obtain ⟨i, hi, hrest⟩ := ih _ kw true b name v h hk2 hv
            exact ⟨i, List.mem_cons_of_mem _ hi, hrest⟩
        | none =>
          rw [hc] at h
          cases hreq : inj.required with
          | true => rw [hreq] at h; simp at h
          | false =>
            rw [hreq] at h
            obtain ⟨i, hi, hrest⟩ := ih kwargs kw dirty b name v (by simpa using h) hk hv
            exact ⟨i, List.mem_cons_of_mem _ hi, hrest⟩

/-- C6: at call time the caller's keyword arguments are never mutated and
injection is copy-on-write: when nothing is injected the original mapping is
passed through unchanged (the dirty flag stays `false` and the result is the
input); entries the caller supplied keep their values; any key present in the
result but not in the caller's mapping comes from a blueprint entry past the
offset whose dependency is non-null and resolved to that value; and the
wrapper invokes the injection with offset `injection_offset + len(args)`, so
entries covered by positional arguments are never touched. -/
theorem inject_kwargs_copy_on_write {V W : Type} :
    (∀ (container : Dep → Option V) (blueprint : InjectionBlueprint)
        (offset : Nat) (kwargs kw : List (String × V)),
      inject_kwargs container blueprint offset kwargs = .ok (kw, false) →
      kw = kwargs)
    ∧ (∀ (container : Dep → Option V) (blueprint : InjectionBlueprint)
        (offset : Nat) (kwargs kw : List (String × V)) (b : Bool)
        (name : String),
      inject_kwargs container blueprint offset kwargs = .ok (kw, b) →
      hasKey kwargs name = true →
      dictGet kw name = dictGet kwargs name)
    ∧ (∀ (container : Dep → Option V) (blueprint : InjectionBlueprint)
        (offset : Nat) (kwargs kw : List (String × V)) (b : Bool)
        (name : String) (v : V),
      inject_kwargs container blueprint offset kwargs = .ok (kw, b) →
      hasKey kwargs name = false →
      dictGet kw name = some v →
      ∃ inj, inj ∈ blueprint.injections.drop offset ∧ inj.arg_name = name
        ∧ ∃ dep, inj.dependency = some dep ∧ container dep = some v)
    ∧ (∀ (w : InjectedWrapper V W) (container : Dep → Option V)
        (args : List V) (kwargs : List (String × V)) (r : W),
      w.call container args kwargs = .ok r →
      ∃ kw b, inject_kwargs container w.blueprint
          (w.injection_offset + args.length) kwargs = .ok (kw, b)
        ∧ r = w.wrapped args kw) := by
  refine ⟨?clean, ?pres, ?newkeys, ?call⟩
  · intro container blueprint offset kwargs kw h
    exact injectLoop_clean_id container _ kwargs kw h
  · intro container blueprint offset kwargs kw b name h hk
    exact injectLoop_preserves_existing container _ kwargs kw false b name h hk
  · intro container blueprint offset kwargs kw b name v h hk hv
    exact injectLoop_new_keys container _ kwargs kw false b name v h hk hv
  · intro w container args kwargs r h
    cases hik : inject_kwargs container w.blueprint
        (w.injection_offset + args.length) kwargs with
    | error e => rw [InjectedWrapper.call, hik] at h; cases h
    | ok p =>
      obtain ⟨kw, b⟩ := p
      rw [InjectedWrapper.call, hik] at h
      exact ⟨kw, b, rfl, by injection h with h'; exact h'.symm⟩

/-- A container resolving everything to the value `42`. -/
def cNat : Dep → Option Nat := fun _ => some 42

/-- A blueprint with a dependency-less entry and an entry whose name the
caller already supplies. -/
def bp6 : InjectionBlueprint :=
  { injections := [{ arg_name := "a", required := true, dependency := none },
                   { arg_name := "b", required := true, dependency := some (.key 0) }] }

/-- Witness for `inject_kwargs_copy_on_write` at concrete inputs: with every
entry either dependency-less or already supplied, the caller's mapping passes
through unchanged and its entries keep their values. -/
theorem inject_kwargs_copy_on_write_witness :
    ([("b", (3 : Nat))] : List (String × Nat)) = [("b", 3)]
    ∧ dictGet ([("b", (3 : Nat))]) "b" = dictGet ([("b", (3 : Nat))]) "b" := by
  constructor
  · exact (inject_kwargs_copy_on_write (W := Nat)).1 cNat bp6 0 [("b", 3)]
      [("b", 3)] (by rfl)
  · exact (inject_kwargs_copy_on_write (W := Nat)).2.1 cNat bp6 0 [("b", 3)]
      [("b", 3)] false "b" (by rfl) (by decide)

/-! ### C7: path-relative cycle detection in the debug tree -/

/-- The description of a tree node. -/
def DebugTreeNode.info : DebugTreeNode → String
  | .node i _ _ => i

/-- The scope annotation of a tree node. -/
def DebugTreeNode.scope : DebugTreeNode → Option Scope
  | .node _ sc _ => sc

/-- The children of a tree node. -/
def DebugTreeNode.children : DebugTreeNode → List DebugTreeNode
  | .node _ _ cs => cs

/-- A two-identifier environment with a dependency cycle `A → B → A`. -/
def envAB : DebugEnv :=
  { debug := fun d =>
      match d with
      | .key 0 => some { info := "A", scope := some .singleton,
                         dependencies := [.key 1], wired := [] }
      | .key 1 => some { info := "B", scope := some .singleton,
                         dependencies := [.key 0], wired := [] }
      | _ => none,
    debugRepr := fun _ => "" }

/-- An environment in which the root `R` has two independent children `X` and
`Y` that both depend on the same identifier `C`. -/
def envR : DebugEnv :=
  { debug := fun d =>
      match d with
      | .key 2 => some { info := "R", scope := some .singleton,
                         dependencies := [.key 3, .key 4], wired := [] }
      | .key 3 => some { info := "X", scope := some .singleton,
                         dependencies := [.key 5], wired := [] }
      | .key 4 => some { info := "Y", scope := some .singleton,
                         dependencies := [.key 5], wired := [] }
      | .key 5 => some { info := "C", scope := some .singleton,
                         dependencies := [], wired := [] }
      | _ => none,
    debugRepr := fun _ => "" }

/-- C7: cycle detection in the tree built by `tree_debug_info` is
path-relative.  A dependency node whose identifier the container knows is
rendered as a "Cyclic dependency" leaf with no children exactly when the
identifier already occurs among the ancestor identifiers of the current
root-to-node path, and otherwise carries the container's description and
scope for it; concretely, for the cyclic graph `A → B → A` the tree rooted at
`A` shows `B` under `A` and a "Cyclic dependency: A" leaf under `B` with no
further descent, while a root with two branches that both reach `C` shows `C`
rendered normally in each branch, not flagged as cyclic. -/
theorem debug_tree_cycle_detection :
    (∀ (env : DebugEnv) (depth fuel : Nat) (ancestors : List Dep) (d : Dep)
        (dbg : DebugInfo),
      env.debug d = some dbg →
      (ancestors.any (depEq d) = true →
        buildDep env depth (fuel + 1) ancestors d
          = .node ("/!\\ Cyclic dependency: " ++ dbg.info) (some .sentinel) [])
      ∧ (ancestors.any (depEq d) = false →
        (buildDep env depth (fuel + 1) ancestors d).info = dbg.info
          ∧ (buildDep env depth (fuel + 1) ancestors d).scope = dbg.scope))
    ∧ tree_debug_info envAB (.key 0) 10
        = .node "A" (some .singleton)
            [.node "B" (some .singleton)
              [.node ("/!\\ Cyclic dependency: " ++ "A") (some .sentinel) []]]
    ∧ tree_debug_info envR (.key 2) 10
        = .node "R" (some .singleton)
            [.node "Y" (some .singleton) [.node "C" (some .singleton) []],
             .node "X" (some .singleton) [.node "C" (some .singleton) []]] := by
  refine ⟨?gen, ?cycle, ?branches⟩
  · intro env depth fuel ancestors d dbg hdbg
    constructor
    · intro hmem
      simp [buildDep, hdbg, hmem]
    · intro hmem
      constructor <;>
        simp [buildDep, hdbg, hmem, DebugTreeNode.info, DebugTreeNode.scope]
  · rfl
  · rfl

/-- Witness for `debug_tree_cycle_detection` at concrete inputs: with `A`
already on the path, the node built for `A` is the cyclic leaf; with an empty
path it carries `A`'s own description. -/
theorem debug_tree_cycle_detection_witness :
    buildDep envAB 11 1 [.key 0] (.key 0)
      = .node ("/!\\ Cyclic dependency: " ++ "A") (some .sentinel) []
    ∧ (buildDep envAB 11 1 [] (.key 0)).info = "A" := by
  constructor
  · exact (debug_tree_cycle_detection.1 envAB 11 0 [.key 0] (.key 0)
      { info := "A", scope := some .singleton, dependencies := [.key 1],
        wired := [] } rfl).1 (by decide)
  · exact ((debug_tree_cycle_detection.1 envAB 11 0 [] (.key 0)
      { info := "A", scope := some .singleton, dependencies := [.key 1],
        wired := [] } rfl).2 (by decide)).1

end Antidote
